import Mathlib

/-
Verification development for the distributed linear-algebra layer of
dolfinx (src/python/dolfinx/la/__init__.py).  The Python file is a thin
binding over a native engine; where an operation's semantics live in the
native library, the corresponding definition is modelled from the
specification and marked as such in its doc comment.
-/

namespace Dolfinx

/-- Leaf numpy scalar dtypes that may be passed as the dtype argument of
matrix_csr and vector.  np.issubdtype compared against a concrete leaf
type (np.float32 and so on) is equality of leaf types, so the dispatch
chain is modelled over this enumeration. -/
inductive DType where
  | float16 | float32 | float64 | longdouble
  | complex64 | complex128
  | int8 | int16 | int32 | int64
  | uint8 | uint16 | uint32 | uint64
  | boolean
  deriving DecidableEq

/-- The native matrix classes (_cpp.la.MatrixCSR_*) that matrix_csr can
instantiate. -/
inductive CppMatrixClass where
  | MatrixCSR_float32 | MatrixCSR_float64 | MatrixCSR_complex64 | MatrixCSR_complex128
  deriving DecidableEq

/-- The native vector classes (_cpp.la.Vector_*) that vector can
instantiate. -/
inductive CppVectorClass where
  | Vector_float32 | Vector_float64 | Vector_complex64 | Vector_complex128
  | Vector_int8 | Vector_int32 | Vector_int64
  deriving DecidableEq

/-- The Python Vector wrapper object.  __init__ stores the native object
(kept here as its class tag) and sets _petsc_x to None.  wrapsCreated
counts calls to create_vector_wrap and doubles as the identity of the
wrapper created by each call; destroyCalls counts destroy() calls on the
cached wrapper. -/
structure PyVector where
  cls : CppVectorClass
  petsc_x : Option Nat
  wrapsCreated : Nat
  destroyCalls : Nat
  deriving DecidableEq

/-- matrix_csr's dtype dispatch chain: the if/elif chain over
np.issubdtype, raising NotImplementedError (modelled as the error branch,
in which no matrix object is constructed) for unsupported dtypes. -/
def matrix_csr (dtype : DType) : Except String CppMatrixClass :=
  if dtype = DType.float32 then Except.ok CppMatrixClass.MatrixCSR_float32
  else if dtype = DType.float64 then Except.ok CppMatrixClass.MatrixCSR_float64
  else if dtype = DType.complex64 then Except.ok CppMatrixClass.MatrixCSR_complex64
  else if dtype = DType.complex128 then Except.ok CppMatrixClass.MatrixCSR_complex128
  else Except.error "NotImplementedError"

/-- vector's dtype dispatch chain: supported dtypes yield a freshly
constructed Vector wrapper (petsc_x = none, no wrapper created or
destroyed yet); unsupported dtypes raise NotImplementedError and no
vector object is constructed. -/
def vector (dtype : DType) : Except String PyVector :=
  if dtype = DType.float32 then Except.ok ⟨CppVectorClass.Vector_float32, none, 0, 0⟩
  else if dtype = DType.float64 then Except.ok ⟨CppVectorClass.Vector_float64, none, 0, 0⟩
  else if dtype = DType.complex64 then Except.ok ⟨CppVectorClass.Vector_complex64, none, 0, 0⟩
  else if dtype = DType.complex128 then Except.ok ⟨CppVectorClass.Vector_complex128, none, 0, 0⟩
  else if dtype = DType.int8 then Except.ok ⟨CppVectorClass.Vector_int8, none, 0, 0⟩
  else if dtype = DType.int32 then Except.ok ⟨CppVectorClass.Vector_int32, none, 0, 0⟩
  else if dtype = DType.int64 then Except.ok ⟨CppVectorClass.Vector_int64, none, 0, 0⟩
  else Except.error "NotImplementedError"

/-- Vector.petsc_vec: on first access (cache empty) it creates a wrapper
via create_vector_wrap, caches it and returns it; on later accesses it
returns the cached wrapper unchanged.  The returned Nat is the wrapper's
identity. -/
def petsc_vec (v : PyVector) : Nat × PyVector :=
  match v.petsc_x with
  | some p => (p, v)
  | none =>
      (v.wrapsCreated,
       { v with petsc_x := some v.wrapsCreated, wrapsCreated := v.wrapsCreated + 1 })

/-- Vector.__del__: destroys the cached wrapper when one exists,
otherwise does nothing. -/
def del (v : PyVector) : PyVector :=
  match v.petsc_x with
  | none => v
  | some _ => { v with destroyCalls := v.destroyCalls + 1 }

/-- n successive petsc_vec property accesses. -/
def accesses (v : PyVector) : Nat → PyVector
  | 0 => v
  | n + 1 => (petsc_vec (accesses v n)).2

lemma petsc_vec_cached (v : PyVector) (p : Nat) (h : v.petsc_x = some p) :
    petsc_vec v = (p, v) := by
  unfold petsc_vec
  rw [h]

lemma accesses_succ_of_fresh (v : PyVector) (h : v.petsc_x = none) (n : Nat) :
    accesses v (n + 1) =
      { v with petsc_x := some v.wrapsCreated, wrapsCreated := v.wrapsCreated + 1 } := by
  induction n with
  | zero =>
      show (petsc_vec (accesses v 0)).2 = _
      show (petsc_vec v).2 = _
      unfold petsc_vec
      rw [h]
  | succ n ih =>
      show (petsc_vec (accesses v (n + 1))).2 = _
      rw [ih, petsc_vec_cached _ v.wrapsCreated rfl]

/-- C1: matrix_csr succeeds exactly for float32, float64, complex64 and
complex128; vector succeeds exactly for those four plus int8, int32 and
int64; for every other dtype the call is the NotImplementedError branch,
in which no matrix or vector object is constructed. -/
theorem c1_dtype_dispatch (d : DType) :
    ((∃ A, matrix_csr d = Except.ok A) ↔
        (d = DType.float32 ∨ d = DType.float64 ∨
         d = DType.complex64 ∨ d = DType.complex128)) ∧
    ((∃ x, vector d = Except.ok x) ↔
        (d = DType.float32 ∨ d = DType.float64 ∨
         d = DType.complex64 ∨ d = DType.complex128 ∨
         d = DType.int8 ∨ d = DType.int32 ∨ d = DType.int64)) ∧
    (matrix_csr d = Except.error "NotImplementedError" ∨
       ∃ A, matrix_csr d = Except.ok A) ∧
    (vector d = Except.error "NotImplementedError" ∨
       ∃ x, vector d = Except.ok x) := by
  cases d <;> simp [matrix_csr, vector]

/-- C3: a Vector is created with an empty wrapper cache; the wrapper is
created on the first petsc_vec access (exactly one creation), every
later access returns the same cached wrapper and leaves the state
unchanged, destroying the Vector after at least one access calls destroy
exactly once, and destroying it with no access ever made destroys
nothing. -/
theorem c3_petsc_wrap_lifecycle (d : DType) (v0 : PyVector) (n : Nat)
    (h : vector d = Except.ok v0) :
    v0.petsc_x = none ∧
    (accesses v0 (n + 1)).petsc_x = some 0 ∧
    accesses v0 (n + 1) = accesses v0 1 ∧
    (petsc_vec (accesses v0 (n + 1))).1 = 0 ∧
    (accesses v0 (n + 1)).wrapsCreated = 1 ∧
    (del (accesses v0 (n + 1))).destroyCalls = 1 ∧
    (del v0).destroyCalls = 0 := by
  have hfields : v0.petsc_x = none ∧ v0.wrapsCreated = 0 ∧ v0.destroyCalls = 0 := by
    cases d <;> simp [vector] at h <;> simp [← h]
  obtain ⟨hx, hw, hd⟩ := hfields
  have hacc := accesses_succ_of_fresh v0 hx
  refine ⟨hx, ?_, ?_, ?_, ?_, ?_, ?_⟩
  · rw [hacc n, hw]
  · rw [hacc n, hacc 0]
  · rw [hacc n, hw, petsc_vec_cached _ 0 rfl]
  · rw [hacc n, hw]
  · rw [hacc n]
    unfold del
    simp [hd]
  · unfold del
    rw [hx, hd]

/-- C3 witness at a concrete dtype and access count. -/
theorem c3_petsc_wrap_lifecycle_witness :
    (⟨CppVectorClass.Vector_float64, none, 0, 0⟩ : PyVector).petsc_x = none ∧
    (accesses ⟨CppVectorClass.Vector_float64, none, 0, 0⟩ (2 + 1)).petsc_x = some 0 ∧
    accesses ⟨CppVectorClass.Vector_float64, none, 0, 0⟩ (2 + 1) =
      accesses ⟨CppVectorClass.Vector_float64, none, 0, 0⟩ 1 ∧
    (petsc_vec (accesses ⟨CppVectorClass.Vector_float64, none, 0, 0⟩ (2 + 1))).1 = 0 ∧
    (accesses ⟨CppVectorClass.Vector_float64, none, 0, 0⟩ (2 + 1)).wrapsCreated = 1 ∧
    (del (accesses ⟨CppVectorClass.Vector_float64, none, 0, 0⟩ (2 + 1))).destroyCalls = 1 ∧
    (del ⟨CppVectorClass.Vector_float64, none, 0, 0⟩).destroyCalls = 0 :=
  c3_petsc_wrap_lifecycle DType.float64 ⟨CppVectorClass.Vector_float64, none, 0, 0⟩ 2 rfl

/-- An index map: `size_local` owned entries followed by `num_ghosts`
ghost entries, as exposed by the native IndexMap. -/
structure IndexMap where
  size_local : Nat
  num_ghosts : Nat
  deriving DecidableEq

/-- The native MatrixCSR object's observable state: row and column index
maps, block sizes (bs0, bs1), and the local CSR triple data / indices /
indptr (rows cover owned rows then ghost rows).  Scalar entries are
modelled as rationals. -/
structure MatrixCSR where
  row_map : IndexMap
  col_map : IndexMap
  bs0 : Nat
  bs1 : Nat
  data : List ℚ
  indices : List Nat
  indptr : List Nat
  deriving DecidableEq

/-- Number of local rows including ghost rows. -/
def MatrixCSR.nrows_all (m : MatrixCSR) : Nat :=
  m.row_map.size_local + m.row_map.num_ghosts

/-- Number of local columns including ghost columns. -/
def MatrixCSR.ncols_all (m : MatrixCSR) : Nat :=
  m.col_map.size_local + m.col_map.num_ghosts

/-- Modelled from the spec: the CSR storage invariant of the native
matrix (the native class itself is not in the provided sources).  indptr
has one entry per local row (owned and ghost) plus one, starts at 0, is
non-decreasing and ends at nnz = indices.length; data holds bs0*bs1
scalars per nonzero block; every stored column index is a local column
index, in range for the column map's owned-plus-ghost span. -/
def WellFormed (m : MatrixCSR) : Prop :=
  m.indptr.length = m.nrows_all + 1 ∧
  m.indptr.getD 0 0 = 0 ∧
  m.indptr.Pairwise (· ≤ ·) ∧
  m.indptr.getD m.nrows_all 0 = m.indices.length ∧
  m.data.length = m.bs0 * m.bs1 * m.indices.length ∧
  ∀ c ∈ m.indices, c < m.ncols_all

/-- The scipy matrix returned by to_scipy: its shape and the (possibly
sliced) CSR triple handed to scipy's csr_matrix / bsr_matrix
constructor.  blocked records whether the bsr branch was taken. -/
structure ScipyMatrix where
  shape0 : Nat
  shape1 : Nat
  data : List ℚ
  indices : List Nat
  indptr : List Nat
  blocked : Bool
  deriving DecidableEq

/-- MatrixCSR.to_scipy: ncols always spans the column map's owned plus
ghost columns; with ghosted=True the full triple is passed through, with
ghosted=False the triple is restricted to the owned rows by slicing at
nnzlocal = indptr[size_local]; the csr branch is taken when both block
sizes are one, the bsr branch (shape scaled by the block sizes)
otherwise. -/
def MatrixCSR.to_scipy (m : MatrixCSR) (ghosted : Bool) : ScipyMatrix :=
  let ncols := m.col_map.size_local + m.col_map.num_ghosts
  let p : Nat × List ℚ × List Nat × List Nat :=
    if ghosted then
      (m.nrows_all, m.data, m.indices, m.indptr)
    else
      let nr := m.row_map.size_local
      let nnzlocal := m.indptr.getD nr 0
      (nr, m.data.take (m.bs0 * m.bs1 * nnzlocal), m.indices.take nnzlocal,
        m.indptr.take (nr + 1))
  if m.bs0 = 1 ∧ m.bs1 = 1 then
    ⟨p.1, ncols, p.2.1, p.2.2.1, p.2.2.2, false⟩
  else
    ⟨m.bs0 * p.1, m.bs1 * ncols, p.2.1, p.2.2.1, p.2.2.2, true⟩

lemma getD_le_getD_of_pairwise (l : List Nat) (h : l.Pairwise (· ≤ ·))
    (i j : Nat) (hij : i ≤ j) (hj : j < l.length) :
    l.getD i 0 ≤ l.getD j 0 := by
  rcases Nat.lt_or_ge i j with hlt | hge
  · have hi : i < l.length := lt_trans hlt hj
    rw [List.getD_eq_getElem l 0 hi, List.getD_eq_getElem l 0 hj]
    exact List.pairwise_iff_getElem.mp h i j hi hj hlt
  · have : i = j := le_antisymm hij hge
    rw [this]

instance wellFormedDec (m : MatrixCSR) : Decidable (WellFormed m) := by
  unfold WellFormed
  exact inferInstance

lemma to_scipy_false_triple (m : MatrixCSR) :
    (m.to_scipy false).data =
        m.data.take (m.bs0 * m.bs1 * m.indptr.getD m.row_map.size_local 0) ∧
    (m.to_scipy false).indices = m.indices.take (m.indptr.getD m.row_map.size_local 0) ∧
    (m.to_scipy false).indptr = m.indptr.take (m.row_map.size_local + 1) := by
  unfold MatrixCSR.to_scipy
  split
  · rename_i hgf
    exact absurd hgf (by simp)
  · split <;> simp

lemma to_scipy_true_triple (m : MatrixCSR) :
    (m.to_scipy true).data = m.data ∧
    (m.to_scipy true).indices = m.indices ∧
    (m.to_scipy true).indptr = m.indptr := by
  unfold MatrixCSR.to_scipy
  split
  · split <;> simp
  · rename_i hgf
    exact absurd rfl hgf

lemma to_scipy_shape1 (m : MatrixCSR) (g : Bool) :
    (m.to_scipy g).shape1 = m.bs1 * m.ncols_all := by
  unfold MatrixCSR.to_scipy MatrixCSR.ncols_all
  cases g
  · split
    · rename_i hgf
      exact absurd hgf (by simp)
    · split
      · rename_i hb
        simp [hb.2]
      · simp
  · split
    · split
      · rename_i hb
        simp [hb.2]
      · simp
    · rename_i hgf
      exact absurd rfl hgf

/-- C2: for a well-formed matrix the exposed CSR triple has indptr of
length nrows+1 and indices of length nnz, and to_scipy with
ghosted=False restricts it to the owned rows: indptr of length
size_local+1, indices of length indptr[size_local], and data of length
bs0*bs1*indptr[size_local]. -/
theorem c2_to_scipy_owned_slice (m : MatrixCSR) (h : WellFormed m) :
    m.indptr.length = m.nrows_all + 1 ∧
    m.indices.length = m.indptr.getD m.nrows_all 0 ∧
    m.data.length = m.bs0 * m.bs1 * m.indices.length ∧
    (m.to_scipy false).indptr.length = m.row_map.size_local + 1 ∧
    (m.to_scipy false).indices.length = m.indptr.getD m.row_map.size_local 0 ∧
    (m.to_scipy false).data.length =
      m.bs0 * m.bs1 * m.indptr.getD m.row_map.size_local 0 := by
  obtain ⟨h1, h2, h3, h4, h5, h6⟩ := h
  obtain ⟨hd, hi, hp⟩ := to_scipy_false_triple m
  have hnr : m.row_map.size_local ≤ m.nrows_all := Nat.le_add_right _ _
  have hnrlt : m.nrows_all < m.indptr.length := by rw [h1]; omega
  have hloc : m.indptr.getD m.row_map.size_local 0 ≤ m.indices.length := by
    rw [← h4]
    exact getD_le_getD_of_pairwise _ h3 _ _ hnr hnrlt
  refine ⟨h1, h4.symm, h5, ?_, ?_, ?_⟩
  · rw [hp, List.length_take, h1]
    omega
  · rw [hi, List.length_take]
    omega
  · rw [hd, List.length_take, h5]
    have : m.bs0 * m.bs1 * m.indptr.getD m.row_map.size_local 0 ≤
        m.bs0 * m.bs1 * m.indices.length := Nat.mul_le_mul_left _ hloc
    omega

/-- C2 witness: a concrete 2-row matrix (one owned row, one ghost row). -/
theorem c2_to_scipy_owned_slice_witness :
    WellFormed ⟨⟨1, 1⟩, ⟨1, 1⟩, 1, 1, [2, 3], [0, 1], [0, 1, 2]⟩ ∧
    (let m : MatrixCSR := ⟨⟨1, 1⟩, ⟨1, 1⟩, 1, 1, [2, 3], [0, 1], [0, 1, 2]⟩
     m.indptr.length = m.nrows_all + 1 ∧
     m.indices.length = m.indptr.getD m.nrows_all 0 ∧
     m.data.length = m.bs0 * m.bs1 * m.indices.length ∧
     (m.to_scipy false).indptr.length = m.row_map.size_local + 1 ∧
     (m.to_scipy false).indices.length = m.indptr.getD m.row_map.size_local 0 ∧
     (m.to_scipy false).data.length =
       m.bs0 * m.bs1 * m.indptr.getD m.row_map.size_local 0) :=
  ⟨by decide, c2_to_scipy_owned_slice ⟨⟨1, 1⟩, ⟨1, 1⟩, 1, 1, [2, 3], [0, 1], [0, 1, 2]⟩
    (by decide)⟩

/-- C10: to_scipy always sizes the column dimension to the column map's
size_local + num_ghosts (scaled by bs1 in the block branch), for both
ghosted settings, and every stored column index of the returned matrix
is in bounds for that column span. -/
theorem c10_to_scipy_column_span (m : MatrixCSR) (h : WellFormed m) (g : Bool) :
    (m.to_scipy g).shape1 = m.bs1 * m.ncols_all ∧
    (m.to_scipy g).indices.all (fun c => c < m.ncols_all) = true := by
  obtain ⟨h1, h2, h3, h4, h5, h6⟩ := h
  constructor
  · exact to_scipy_shape1 m g
  · rw [List.all_eq_true]
    intro c hc
    cases g
    · obtain ⟨_, hi, _⟩ := to_scipy_false_triple m
      rw [hi] at hc
      exact decide_eq_true (h6 c (List.take_subset _ _ hc))
    · obtain ⟨_, hi, _⟩ := to_scipy_true_triple m
      rw [hi] at hc
      exact decide_eq_true (h6 c hc)

/-- C10 witness at a concrete matrix with a ghost column index stored. -/
theorem c10_to_scipy_column_span_witness :
    WellFormed ⟨⟨1, 1⟩, ⟨1, 1⟩, 1, 1, [2, 3], [0, 1], [0, 1, 2]⟩ ∧
    ((⟨⟨1, 1⟩, ⟨1, 1⟩, 1, 1, [2, 3], [0, 1], [0, 1, 2]⟩ :
        MatrixCSR).to_scipy false).shape1 =
      1 * (⟨⟨1, 1⟩, ⟨1, 1⟩, 1, 1, [2, 3], [0, 1], [0, 1, 2]⟩ :
        MatrixCSR).ncols_all ∧
    ((⟨⟨1, 1⟩, ⟨1, 1⟩, 1, 1, [2, 3], [0, 1], [0, 1, 2]⟩ :
        MatrixCSR).to_scipy false).indices.all
      (fun c => c < (⟨⟨1, 1⟩, ⟨1, 1⟩, 1, 1, [2, 3], [0, 1], [0, 1, 2]⟩ :
        MatrixCSR).ncols_all) = true := by
  refine ⟨by decide, ?_, ?_⟩
  · exact (c10_to_scipy_column_span
      ⟨⟨1, 1⟩, ⟨1, 1⟩, 1, 1, [2, 3], [0, 1], [0, 1, 2]⟩ (by decide) false).1
  · exact (c10_to_scipy_column_span
      ⟨⟨1, 1⟩, ⟨1, 1⟩, 1, 1, [2, 3], [0, 1], [0, 1, 2]⟩ (by decide) false).2

/-- Modelled from the spec: locate the storage slot of nonzero block
(r, c) by scanning the column indices of row r in the fixed sparsity
structure; none when (r, c) is not in the pattern.  (The native
MatrixCSR::add / set are not in the provided sources.) -/
def findSlot (m : MatrixCSR) (r c : Nat) : Option Nat :=
  (List.range' (m.indptr.getD r 0)
      (m.indptr.getD (r + 1) 0 - m.indptr.getD r 0)).find?
    (fun k => m.indices.getD k m.ncols_all = c)

/-- Modelled from the spec: MatrixCSR.add for a scalar entry
(bs0 = bs1 = 1): accumulate v onto the existing slot for (r, c); a
write to a slot absent from the sparsity pattern is a fatal
precondition violation (none). -/
def MatrixCSR.add (m : MatrixCSR) (r c : Nat) (v : ℚ) : Option MatrixCSR :=
  (findSlot m r c).map fun k => { m with data := m.data.set k (m.data.getD k 0 + v) }

/-- Modelled from the spec: MatrixCSR.set for a scalar entry: overwrite
the existing slot for (r, c); same addressing as add. -/
def MatrixCSR.set (m : MatrixCSR) (r c : Nat) (v : ℚ) : Option MatrixCSR :=
  (findSlot m r c).map fun k => { m with data := m.data.set k v }

/-- The stored value at pattern position (r, c). -/
def MatrixCSR.getValue (m : MatrixCSR) (r c : Nat) : Option ℚ :=
  (findSlot m r c).map fun k => m.data.getD k 0

/-- Apply a sequence of scalar add calls, failing if any one fails. -/
def applyAdds (m : MatrixCSR) : List (Nat × Nat × ℚ) → Option MatrixCSR
  | [] => some m
  | (r, c, v) :: rest =>
      match m.add r c v with
      | none => none
      | some m2 => applyAdds m2 rest

lemma add_preserves_struct {m m1 : MatrixCSR} {r c : Nat} {v : ℚ}
    (h : m.add r c v = some m1) :
    m1.indptr = m.indptr ∧ m1.indices = m.indices ∧ m1.col_map = m.col_map ∧
      m1.data.length = m.data.length := by
  obtain ⟨k, _, rfl⟩ := Option.map_eq_some'.mp h
  exact ⟨rfl, rfl, rfl, List.length_set m.data k _⟩

lemma set_preserves_struct {m m1 : MatrixCSR} {r c : Nat} {v : ℚ}
    (h : MatrixCSR.set m r c v = some m1) :
    m1.indptr = m.indptr ∧ m1.indices = m.indices ∧ m1.col_map = m.col_map ∧
      m1.data.length = m.data.length := by
  obtain ⟨k, _, rfl⟩ := Option.map_eq_some'.mp h
  exact ⟨rfl, rfl, rfl, List.length_set m.data k _⟩

lemma findSlot_congr {m m' : MatrixCSR} (r c : Nat)
    (hp : m'.indptr = m.indptr) (hi : m'.indices = m.indices)
    (hc : m'.col_map = m.col_map) :
    findSlot m' r c = findSlot m r c := by
  unfold findSlot MatrixCSR.ncols_all
  rw [hp, hi, hc]

lemma applyAdds_preserves_struct :
    ∀ (ops : List (Nat × Nat × ℚ)) {m ma : MatrixCSR},
      applyAdds m ops = some ma →
      ma.indptr = m.indptr ∧ ma.indices = m.indices ∧ ma.col_map = m.col_map ∧
        ma.data.length = m.data.length
  | [], m, ma, h => by
      obtain rfl : m = ma := by simpa [applyAdds] using h
      exact ⟨rfl, rfl, rfl, rfl⟩
  | (r, c, v) :: rest, m, ma, h => by
      unfold applyAdds at h
      cases hadd : m.add r c v with
      | none => rw [hadd] at h; exact absurd h (by simp)
      | some m2 =>
          rw [hadd] at h
          obtain ⟨p1, p2, p3, p4⟩ := add_preserves_struct hadd
          obtain ⟨q1, q2, q3, q4⟩ := applyAdds_preserves_struct rest h
          exact ⟨q1.trans p1, q2.trans p2, q3.trans p3, q4.trans p4⟩

lemma getD_set_self (l : List ℚ) (k : Nat) (a : ℚ) (h : k < l.length) :
    (l.set k a).getD k 0 = a := by
  rw [List.getD_eq_getElem _ _ (by simpa using h)]
  simp

lemma findSlot_data_update (m : MatrixCSR) (d : List ℚ) (r c : Nat) :
    findSlot { m with data := d } r c = findSlot m r c := rfl

lemma add_getValue {m m1 : MatrixCSR} {r c k : Nat} {v : ℚ}
    (hk : findSlot m r c = some k) (hlen : k < m.data.length)
    (h : m.add r c v = some m1) :
    m1.getValue r c = some (m.data.getD k 0 + v) := by
  obtain ⟨k2, hk2, rfl⟩ := Option.map_eq_some'.mp h
  rw [hk] at hk2
  obtain rfl : k = k2 := Option.some.injEq _ _ ▸ hk2
  unfold MatrixCSR.getValue
  rw [findSlot_data_update, hk]
  simp only [Option.map_some']
  exact congrArg some (getD_set_self _ _ _ hlen)

lemma set_getValue {m m1 : MatrixCSR} {r c k : Nat} {v : ℚ}
    (hk : findSlot m r c = some k) (hlen : k < m.data.length)
    (h : MatrixCSR.set m r c v = some m1) :
    m1.getValue r c = some v := by
  obtain ⟨k2, hk2, rfl⟩ := Option.map_eq_some'.mp h
  rw [hk] at hk2
  obtain rfl : k = k2 := Option.some.injEq _ _ ▸ hk2
  unfold MatrixCSR.getValue
  rw [findSlot_data_update, hk]
  simp only [Option.map_some']
  exact congrArg some (getD_set_self _ _ _ hlen)

/-- C5: at a pattern position whose stored value is zero (as in a
freshly created matrix), one add stores v and a second identical add
stores exactly 2*v (add accumulates); and set with value w after any
successful sequence of adds leaves exactly w (set overwrites). -/
theorem c5_add_accumulates_set_overwrites
    (m m1 m2 ma mb : MatrixCSR) (r c k : Nat) (v w : ℚ)
    (ops : List (Nat × Nat × ℚ))
    (hk : findSlot m r c = some k) (hlen : k < m.data.length)
    (h0 : m.getValue r c = some 0)
    (h1 : m.add r c v = some m1)
    (h2 : m1.add r c v = some m2)
    (hadds : applyAdds m ops = some ma)
    (hset : MatrixCSR.set ma r c w = some mb) :
    m1.getValue r c = some v ∧
    m2.getValue r c = some (2 * v) ∧
    mb.getValue r c = some w := by
  have hd0 : m.data.getD k 0 = 0 := by
    unfold MatrixCSR.getValue at h0
    rw [hk] at h0
    simpa using h0
  obtain ⟨p1, p2, p3, p4⟩ := add_preserves_struct h1
  have hk1 : findSlot m1 r c = some k := by
    rw [findSlot_congr r c p1 p2 p3, hk]
  have hlen1 : k < m1.data.length := by rw [p4]; exact hlen
  have g1 : m1.getValue r c = some v := by
    rw [add_getValue hk hlen h1, hd0, zero_add]
  have hd1 : m1.data.getD k 0 = v := by
    unfold MatrixCSR.getValue at g1
    rw [hk1] at g1
    simpa using g1
  have g2 : m2.getValue r c = some (2 * v) := by
    rw [add_getValue hk1 hlen1 h2, hd1, two_mul]
  obtain ⟨q1, q2, q3, q4⟩ := applyAdds_preserves_struct ops hadds
  have hka : findSlot ma r c = some k := by
    rw [findSlot_congr r c q1 q2 q3, hk]
  have hlena : k < ma.data.length := by rw [q4]; exact hlen
  exact ⟨g1, g2, set_getValue hka hlena hset⟩

/-- C5 witness: a 1x1 matrix with a single pattern slot, v = 3, w = 7,
with an intervening add of 5 before the set. -/
theorem c5_add_accumulates_set_overwrites_witness :
    (⟨⟨1, 0⟩, ⟨1, 0⟩, 1, 1, [3], [0], [0, 1]⟩ : MatrixCSR).getValue 0 0 = some 3 ∧
    (⟨⟨1, 0⟩, ⟨1, 0⟩, 1, 1, [6], [0], [0, 1]⟩ : MatrixCSR).getValue 0 0 = some (2 * 3) ∧
    (⟨⟨1, 0⟩, ⟨1, 0⟩, 1, 1, [7], [0], [0, 1]⟩ : MatrixCSR).getValue 0 0 = some 7 :=
  c5_add_accumulates_set_overwrites
    ⟨⟨1, 0⟩, ⟨1, 0⟩, 1, 1, [0], [0], [0, 1]⟩
    ⟨⟨1, 0⟩, ⟨1, 0⟩, 1, 1, [3], [0], [0, 1]⟩
    ⟨⟨1, 0⟩, ⟨1, 0⟩, 1, 1, [6], [0], [0, 1]⟩
    ⟨⟨1, 0⟩, ⟨1, 0⟩, 1, 1, [5], [0], [0, 1]⟩
    ⟨⟨1, 0⟩, ⟨1, 0⟩, 1, 1, [7], [0], [0, 1]⟩
    0 0 0 3 7 [(0, 0, 5)]
    (by decide) (by decide)
    (by norm_num [MatrixCSR.getValue, findSlot, MatrixCSR.ncols_all])
    (by norm_num [MatrixCSR.add, findSlot, MatrixCSR.ncols_all])
    (by norm_num [MatrixCSR.add, findSlot, MatrixCSR.ncols_all])
    (by norm_num [applyAdds, MatrixCSR.add, findSlot, MatrixCSR.ncols_all])
    (by norm_num [MatrixCSR.set, findSlot, MatrixCSR.ncols_all])

/-- Modelled from the spec: one local CSR row product, computed purely
from the worker's own data, indices and indptr arrays and its local x
buffer (the native mult is not in the provided sources).  Scalar
entries, bs0 = bs1 = 1. -/
def rowDot (m : MatrixCSR) (x : List ℚ) (i : Nat) : ℚ :=
  ∑ k ∈ Finset.Ico (m.indptr.getD i 0) (m.indptr.getD (i + 1) 0),
    m.data.getD k 0 * x.getD (m.indices.getD k 0) 0

/-- Modelled from the spec: MatrixCSR.mult accumulates A·x into y row by
row (y += A·x over all local rows, owned and ghost). -/
def MatrixCSR.mult (m : MatrixCSR) (x y : List ℚ) : List ℚ :=
  (List.range y.length).map fun i => y.getD i 0 + rowDot m x i

/-- A mult call issued on worker w in a multi-worker configuration: it
consumes only worker w's matrix and vectors and writes only worker w's
y; no exchange with any other worker takes place. -/
def multOnWorker {W : Nat} (mats : Fin W → MatrixCSR) (xs ys : Fin W → List ℚ)
    (w : Fin W) : Fin W → List ℚ :=
  fun w2 => if w2 = w then (mats w).mult (xs w) (ys w) else ys w2

/-- C9: mult(x, y) accumulates: every entry of the result is the prior y
entry plus the local CSR row product, y keeps its length, and a mult
issued on one worker leaves every other worker's y untouched (no
inter-worker communication; consolidating ghost rows is a separate
scatter_reverse by the caller). -/
theorem c9_mult_accumulates_locally {W : Nat} (m : MatrixCSR) (x y : List ℚ)
    (i : Nat) (mats : Fin W → MatrixCSR) (xs ys : Fin W → List ℚ) (w w2 : Fin W)
    (hi : i < y.length) (hw : w2 ≠ w) :
    (m.mult x y).length = y.length ∧
    (m.mult x y).getD i 0 = y.getD i 0 + rowDot m x i ∧
    multOnWorker mats xs ys w w2 = ys w2 ∧
    multOnWorker mats xs ys w w = (mats w).mult (xs w) (ys w) := by
  refine ⟨by simp [MatrixCSR.mult], ?_, ?_, ?_⟩
  · have h1 : i < ((List.range y.length).map
        fun j => y.getD j 0 + rowDot m x j).length := by simpa using hi
    unfold MatrixCSR.mult
    rw [List.getD_eq_getElem _ _ h1, List.getElem_map, List.getElem_range]
  · simp [multOnWorker, hw]
  · simp [multOnWorker]

/-- C9 witness: a concrete 2x2 matrix on worker 0 of a two-worker
configuration. -/
theorem c9_mult_accumulates_locally_witness :
    ((⟨⟨2, 0⟩, ⟨2, 0⟩, 1, 1, [1, 2, 3], [0, 1, 1], [0, 2, 3]⟩ : MatrixCSR).mult
        [10, 100] [5, 7]).length = [5, 7].length ∧
    ((⟨⟨2, 0⟩, ⟨2, 0⟩, 1, 1, [1, 2, 3], [0, 1, 1], [0, 2, 3]⟩ : MatrixCSR).mult
        [10, 100] [5, 7]).getD 0 0 =
      [5, 7].getD 0 0 +
        rowDot ⟨⟨2, 0⟩, ⟨2, 0⟩, 1, 1, [1, 2, 3], [0, 1, 1], [0, 2, 3]⟩ [10, 100] 0 ∧
    multOnWorker (fun _ : Fin 2 => ⟨⟨2, 0⟩, ⟨2, 0⟩, 1, 1, [1, 2, 3], [0, 1, 1], [0, 2, 3]⟩)
        (fun _ => [10, 100]) (fun _ => [5, 7]) 0 1 = (fun _ : Fin 2 => [5, 7]) 1 ∧
    multOnWorker (fun _ : Fin 2 => ⟨⟨2, 0⟩, ⟨2, 0⟩, 1, 1, [1, 2, 3], [0, 1, 1], [0, 2, 3]⟩)
        (fun _ => [10, 100]) (fun _ => [5, 7]) 0 0 =
      (⟨⟨2, 0⟩, ⟨2, 0⟩, 1, 1, [1, 2, 3], [0, 1, 1], [0, 2, 3]⟩ : MatrixCSR).mult
        [10, 100] [5, 7] :=
  c9_mult_accumulates_locally
    ⟨⟨2, 0⟩, ⟨2, 0⟩, 1, 1, [1, 2, 3], [0, 1, 1], [0, 2, 3]⟩ [10, 100] [5, 7] 0
    (fun _ : Fin 2 => ⟨⟨2, 0⟩, ⟨2, 0⟩, 1, 1, [1, 2, 3], [0, 1, 1], [0, 2, 3]⟩)
    (fun _ => [10, 100]) (fun _ => [5, 7]) 0 1
    (by decide) (by decide)

/-- Modelled from the spec: the ownership/ghost layout of a distributed
index set: every global index has one owning worker, and a worker never
holds its own index as a ghost. -/
structure Layout (W N : Nat) where
  owner : Fin N → Fin W
  isGhost : Fin W → Fin N → Bool
  ghost_not_owner : ∀ w g, isGhost w g = true → owner g ≠ w

/-- Modelled from the spec: scatter_forward overwrites every ghost copy
with the owner's current value; owned entries are untouched (the native
exchange is not in the provided sources). -/
def scatter_forward {W N : Nat} (L : Layout W N) (s : Fin W → Fin N → ℚ) :
    Fin W → Fin N → ℚ :=
  fun w g => if L.isGhost w g then s (L.owner g) g else s w g

/-- Modelled from the spec: scatter_reverse with insert mode: for each
entry the owner's slot receives the value of one ghost holder (last
writer wins, the choice c picks the winning holder), or keeps its value
when no holder wrote; non-owner slots are untouched. -/
def scatter_reverse_insert {W N : Nat} (L : Layout W N) (c : Fin N → Option (Fin W))
    (s : Fin W → Fin N → ℚ) : Fin W → Fin N → ℚ :=
  fun w g =>
    if w = L.owner g then
      match c g with
      | some w2 => s w2 g
      | none => s w g
    else s w g

/-- C4: scatter_forward followed immediately by scatter_reverse with
insert mode, with no ghost write in between, leaves every owned entry's
value unchanged, for every choice of winning writer among the ghost
holders. -/
theorem c4_forward_reverse_insert_roundtrip {W N : Nat} (L : Layout W N)
    (c : Fin N → Option (Fin W)) (s : Fin W → Fin N → ℚ) (g : Fin N)
    (hc : ∀ g2 w2, c g2 = some w2 → L.isGhost w2 g2 = true) :
    scatter_reverse_insert L c (scatter_forward L s) (L.owner g) g =
      s (L.owner g) g := by
  unfold scatter_reverse_insert scatter_forward
  rw [if_pos rfl]
  cases hcg : c g with
  | none => simp
  | some w2 => simp [hc g w2 hcg]

/-- C4 witness: two workers, worker 1 ghosts the single entry owned by
worker 0 and is picked as the reverse-insert writer. -/
theorem c4_forward_reverse_insert_roundtrip_witness :
    scatter_reverse_insert
        (⟨fun _ => 0, fun w _ => w == 1, by decide⟩ : Layout 2 1)
        (fun _ => some 1)
        (scatter_forward (⟨fun _ => 0, fun w _ => w == 1, by decide⟩ : Layout 2 1)
          (fun w _ => if w = 0 then 4 else 9))
        ((⟨fun _ => 0, fun w _ => w == 1, by decide⟩ : Layout 2 1).owner 0) 0 =
      (fun w (_ : Fin 1) => if w = (0 : Fin 2) then (4 : ℚ) else 9)
        ((⟨fun _ => 0, fun w _ => w == 1, by decide⟩ : Layout 2 1).owner 0) 0 :=
  c4_forward_reverse_insert_roundtrip
    (⟨fun _ => 0, fun w _ => w == 1, by decide⟩ : Layout 2 1)
    (fun _ => some 1) (fun w _ => if w = 0 then 4 else 9) 0
    (by decide)

/-- Modelled from the spec: the authoritative global value of entry g is
the copy held by its owning worker (o maps each global entry to its
owner, lv w g is worker w's local copy). -/
def gval {N W : Nat} (o : Fin N → Fin W) (lv : Fin W → Fin N → ℚ) (g : Fin N) : ℚ :=
  lv (o g) g

/-- Modelled from the spec: worker w's local sum of squares over its
owned entries only; ghost copies are excluded. -/
def localSqNorm {N W : Nat} (o : Fin N → Fin W) (lv : Fin W → Fin N → ℚ)
    (w : Fin W) : ℚ :=
  ∑ g ∈ Finset.univ.filter (fun g => o g = w), lv w g ^ 2

/-- Modelled from the spec: squared_norm is the collective sum over all
workers of the local owned sums of squares (the native squared_norm is
not in the provided sources). -/
def squared_norm {N W : Nat} (o : Fin N → Fin W) (lv : Fin W → Fin N → ℚ) : ℚ :=
  ∑ w, localSqNorm o lv w

lemma squared_norm_global {N W : Nat} (o : Fin N → Fin W)
    (lv : Fin W → Fin N → ℚ) :
    squared_norm o lv = ∑ g, gval o lv g ^ 2 := by
  unfold squared_norm localSqNorm
  calc
    ∑ w, ∑ g ∈ Finset.univ.filter (fun g => o g = w), lv w g ^ 2
        = ∑ w, ∑ g ∈ Finset.univ.filter (fun g => o g = w), gval o lv g ^ 2 := by
          refine Finset.sum_congr rfl fun w _ => Finset.sum_congr rfl fun g hg => ?_
          have hog := (Finset.mem_filter.mp hg).2
          unfold gval
          rw [hog]
    _ = ∑ g, gval o lv g ^ 2 := Finset.sum_fiberwise _ _ _

/-- C6: squared_norm sums squares over owned entries only and reduces
globally, so it equals the plain sum of squares of the global values;
any two partitionings holding the same logical matrix (equal global
values, regardless of worker count or of ghost copies) give the same
squared_norm. -/
theorem c6_squared_norm_partition_invariant {N W1 W2 : Nat}
    (o1 : Fin N → Fin W1) (lv1 : Fin W1 → Fin N → ℚ)
    (o2 : Fin N → Fin W2) (lv2 : Fin W2 → Fin N → ℚ)
    (h : ∀ g, gval o1 lv1 g = gval o2 lv2 g) :
    squared_norm o1 lv1 = ∑ g, gval o1 lv1 g ^ 2 ∧
    squared_norm o1 lv1 = squared_norm o2 lv2 := by
  refine ⟨squared_norm_global o1 lv1, ?_⟩
  rw [squared_norm_global o1 lv1, squared_norm_global o2 lv2]
  exact Finset.sum_congr rfl fun g _ => by rw [h g]

/-- C6 witness: the same 2-entry matrix held on one worker and split
over two workers whose ghost copies hold junk values. -/
theorem c6_squared_norm_partition_invariant_witness :
    (∀ g : Fin 2,
      gval (fun _ : Fin 2 => (0 : Fin 1)) (fun (_ : Fin 1) (g : Fin 2) => if g = 0 then (3 : ℚ) else 4) g =
        gval (fun g : Fin 2 => g) (fun (w : Fin 2) (g : Fin 2) => if w = g then (if g = 0 then (3 : ℚ) else 4) else 99) g) ∧
    squared_norm (fun _ : Fin 2 => (0 : Fin 1)) (fun (_ : Fin 1) (g : Fin 2) => if g = 0 then (3 : ℚ) else 4) =
      squared_norm (fun g : Fin 2 => g)
        (fun (w : Fin 2) (g : Fin 2) => if w = g then (if g = 0 then (3 : ℚ) else 4) else 99) := by
  have h : ∀ g : Fin 2,
      gval (fun _ : Fin 2 => (0 : Fin 1)) (fun (_ : Fin 1) (g : Fin 2) => if g = 0 then (3 : ℚ) else 4) g =
        gval (fun g : Fin 2 => g) (fun (w : Fin 2) (g : Fin 2) => if w = g then (if g = 0 then (3 : ℚ) else 4) else 99) g := by
    decide
  exact ⟨h, (c6_squared_norm_partition_invariant _ _ _ _ h).2⟩

/-- Modelled from the spec: worker w's local L1 contribution over its
owned entries only. -/
def localL1 {N W : Nat} (o : Fin N → Fin W) (lv : Fin W → Fin N → ℚ)
    (w : Fin W) : ℚ :=
  ∑ g ∈ Finset.univ.filter (fun g => o g = w), |lv w g|

/-- Modelled from the spec: norm(l1) = collective sum of local owned L1
contributions. -/
def norm_l1 {N W : Nat} (o : Fin N → Fin W) (lv : Fin W → Fin N → ℚ) : ℚ :=
  ∑ w, localL1 o lv w

/-- Modelled from the spec: the pre-sqrt value of norm(l2): collective
sum of local owned sums of squares; the final square root is applied to
this (see the claim theorem). -/
def norm_l2_sq {N W : Nat} (o : Fin N → Fin W) (lv : Fin W → Fin N → ℚ) : ℚ :=
  ∑ w, ∑ g ∈ Finset.univ.filter (fun g => o g = w), lv w g ^ 2

/-- Modelled from the spec: worker w's local L-infinity contribution
over its owned entries only. -/
def localLinf {N W : Nat} (o : Fin N → Fin W) (lv : Fin W → Fin N → ℚ)
    (w : Fin W) : ℚ :=
  Finset.fold max 0 (fun g => |lv w g|) (Finset.univ.filter fun g => o g = w)

/-- Modelled from the spec: norm(linf) = collective max of local owned
L-infinity contributions. -/
def norm_linf {N W : Nat} (o : Fin N → Fin W) (lv : Fin W → Fin N → ℚ) : ℚ :=
  Finset.fold max 0 (localLinf o lv) Finset.univ

lemma fold_max_fiberwise {N W : Nat} (o : Fin N → Fin W) (f : Fin N → ℚ) :
    Finset.fold max 0
        (fun w => Finset.fold max 0 f (Finset.univ.filter fun g => o g = w))
        Finset.univ =
      Finset.fold max 0 f Finset.univ := by
  apply le_antisymm
  · rw [Finset.fold_max_le]
    refine ⟨(Finset.le_fold_max _).mpr (Or.inl le_rfl), fun w _ => ?_⟩
    rw [Finset.fold_max_le]
    refine ⟨(Finset.le_fold_max _).mpr (Or.inl le_rfl), fun g _ => ?_⟩
    exact (Finset.le_fold_max _).mpr (Or.inr ⟨g, Finset.mem_univ g, le_rfl⟩)
  · rw [Finset.fold_max_le]
    refine ⟨(Finset.le_fold_max _).mpr (Or.inl le_rfl), fun g _ => ?_⟩
    have h1 : f g ≤ Finset.fold max 0 f (Finset.univ.filter fun g2 => o g2 = o g) :=
      (Finset.le_fold_max _).mpr
        (Or.inr ⟨g, Finset.mem_filter.mpr ⟨Finset.mem_univ g, rfl⟩, le_rfl⟩)
    exact le_trans h1
      ((Finset.le_fold_max _).mpr (Or.inr ⟨o g, Finset.mem_univ (o g), le_rfl⟩))

lemma norm_l1_global {N W : Nat} (o : Fin N → Fin W) (lv : Fin W → Fin N → ℚ) :
    norm_l1 o lv = ∑ g, |gval o lv g| := by
  unfold norm_l1 localL1
  calc
    ∑ w, ∑ g ∈ Finset.univ.filter (fun g => o g = w), |lv w g|
        = ∑ w, ∑ g ∈ Finset.univ.filter (fun g => o g = w), |gval o lv g| := by
          refine Finset.sum_congr rfl fun w _ => Finset.sum_congr rfl fun g hg => ?_
          have hog := (Finset.mem_filter.mp hg).2
          unfold gval
          rw [hog]
    _ = ∑ g, |gval o lv g| := Finset.sum_fiberwise _ _ _

lemma norm_l2_sq_global {N W : Nat} (o : Fin N → Fin W) (lv : Fin W → Fin N → ℚ) :
    norm_l2_sq o lv = ∑ g, gval o lv g ^ 2 := by
  unfold norm_l2_sq
  calc
    ∑ w, ∑ g ∈ Finset.univ.filter (fun g => o g = w), lv w g ^ 2
        = ∑ w, ∑ g ∈ Finset.univ.filter (fun g => o g = w), gval o lv g ^ 2 := by
          refine Finset.sum_congr rfl fun w _ => Finset.sum_congr rfl fun g hg => ?_
          have hog := (Finset.mem_filter.mp hg).2
          unfold gval
          rw [hog]
    _ = ∑ g, gval o lv g ^ 2 := Finset.sum_fiberwise _ _ _

lemma norm_linf_global {N W : Nat} (o : Fin N → Fin W) (lv : Fin W → Fin N → ℚ) :
    norm_linf o lv = Finset.fold max 0 (fun g => |gval o lv g|) Finset.univ := by
  unfold norm_linf localLinf
  calc
    Finset.fold max 0
        (fun w => Finset.fold max 0 (fun g => |lv w g|)
          (Finset.univ.filter fun g => o g = w)) Finset.univ
        = Finset.fold max 0
            (fun w => Finset.fold max 0 (fun g => |gval o lv g|)
              (Finset.univ.filter fun g => o g = w)) Finset.univ := by
          refine Finset.fold_congr fun w _ => Finset.fold_congr fun g hg => ?_
          have hog := (Finset.mem_filter.mp hg).2
          unfold gval
          rw [hog]
    _ = _ := fold_max_fiberwise o _

/-- C7: each norm kind is computed over owned entries only and combined
by a collective reduction (sum for L1 and L2 with the square root taken
of the global L2 sum, max for L-infinity), so it equals the
corresponding reduction of the global values and is identical for any
two partitionings of the same global vector. -/
theorem c7_norm_partition_invariant {N W1 W2 : Nat}
    (o1 : Fin N → Fin W1) (lv1 : Fin W1 → Fin N → ℚ)
    (o2 : Fin N → Fin W2) (lv2 : Fin W2 → Fin N → ℚ)
    (h : ∀ g, gval o1 lv1 g = gval o2 lv2 g) :
    norm_l1 o1 lv1 = ∑ g, |gval o1 lv1 g| ∧
    norm_l2_sq o1 lv1 = ∑ g, gval o1 lv1 g ^ 2 ∧
    norm_linf o1 lv1 = Finset.fold max 0 (fun g => |gval o1 lv1 g|) Finset.univ ∧
    norm_l1 o1 lv1 = norm_l1 o2 lv2 ∧
    Real.sqrt ((norm_l2_sq o1 lv1 : ℚ) : ℝ) = Real.sqrt ((norm_l2_sq o2 lv2 : ℚ) : ℝ) ∧
    norm_linf o1 lv1 = norm_linf o2 lv2 := by
  refine ⟨norm_l1_global o1 lv1, norm_l2_sq_global o1 lv1, norm_linf_global o1 lv1,
    ?_, ?_, ?_⟩
  · rw [norm_l1_global o1 lv1, norm_l1_global o2 lv2]
    exact Finset.sum_congr rfl fun g _ => by rw [h g]
  · have : norm_l2_sq o1 lv1 = norm_l2_sq o2 lv2 := by
      rw [norm_l2_sq_global o1 lv1, norm_l2_sq_global o2 lv2]
      exact Finset.sum_congr rfl fun g _ => by rw [h g]
    rw [this]
  · rw [norm_linf_global o1 lv1, norm_linf_global o2 lv2]
    exact Finset.fold_congr fun g _ => by rw [h g]

/-- C7 witness: the same 2-entry vector held on one worker and split
over two workers whose ghost copies hold junk values. -/
theorem c7_norm_partition_invariant_witness :
    (∀ g : Fin 2,
      gval (fun _ : Fin 2 => (0 : Fin 1)) (fun (_ : Fin 1) (g : Fin 2) => if g = 0 then (-3 : ℚ) else 4) g =
        gval (fun g : Fin 2 => g) (fun (w : Fin 2) (g : Fin 2) => if w = g then (if g = 0 then (-3 : ℚ) else 4) else 99) g) ∧
    norm_l1 (fun _ : Fin 2 => (0 : Fin 1)) (fun (_ : Fin 1) (g : Fin 2) => if g = 0 then (-3 : ℚ) else 4) =
      norm_l1 (fun g : Fin 2 => g)
        (fun (w : Fin 2) (g : Fin 2) => if w = g then (if g = 0 then (-3 : ℚ) else 4) else 99) ∧
    norm_linf (fun _ : Fin 2 => (0 : Fin 1)) (fun (_ : Fin 1) (g : Fin 2) => if g = 0 then (-3 : ℚ) else 4) =
      norm_linf (fun g : Fin 2 => g)
        (fun (w : Fin 2) (g : Fin 2) => if w = g then (if g = 0 then (-3 : ℚ) else 4) else 99) := by
  have h : ∀ g : Fin 2,
      gval (fun _ : Fin 2 => (0 : Fin 1)) (fun (_ : Fin 1) (g : Fin 2) => if g = 0 then (-3 : ℚ) else 4) g =
        gval (fun g : Fin 2 => g) (fun (w : Fin 2) (g : Fin 2) => if w = g then (if g = 0 then (-3 : ℚ) else 4) else 99) g := by
    decide
  have hc := c7_norm_partition_invariant _ _ _ _ h
  exact ⟨h, hc.2.2.2.1, hc.2.2.2.2.2⟩

/-- Inner product of two dense real vectors (the real-scalar
instantiation of the engine's inner product). -/
def dot {n : Nat} (x y : Fin n → ℝ) : ℝ := ∑ i, x i * y i

/-- Modelled from the spec: subtract from v its projection onto every
previously orthonormalized vector. -/
def projStep {n : Nat} (acc : List (Fin n → ℝ)) (v : Fin n → ℝ) : Fin n → ℝ :=
  v - (acc.map fun u => dot u v • u).sum

/-- Modelled from the spec: in-place modified Gram-Schmidt over the
remaining vectors, carrying the already-orthonormalized prefix acc;
each vector is projected against the prefix and then normalized by its
own norm.  The square-root routine used for normalization is a
parameter (the native routine uses the hardware one). -/
noncomputable def mgsAux {n : Nat} (sq : ℝ → ℝ) (acc : List (Fin n → ℝ)) :
    List (Fin n → ℝ) → List (Fin n → ℝ)
  | [] => []
  | v :: rest =>
      ((1 / sq (dot (projStep acc v) (projStep acc v))) • projStep acc v) ::
        mgsAux sq
          (acc ++ [(1 / sq (dot (projStep acc v) (projStep acc v))) • projStep acc v])
          rest

/-- Modelled from the spec: orthonormalize runs modified Gram-Schmidt
over the whole list in place, starting from an empty prefix. -/
noncomputable def orthonormalize {n : Nat} (sq : ℝ → ℝ) (basis : List (Fin n → ℝ)) :
    List (Fin n → ℝ) :=
  mgsAux sq [] basis

/-- is_orthonormal(list, eps): all pairwise inner products are within
eps of the identity pattern (1 for self, 0 otherwise). -/
def is_orthonormal {n : Nat} (basis : List (Fin n → ℝ)) (eps : ℝ) : Prop :=
  (∀ v ∈ basis, |dot v v - 1| ≤ eps) ∧
    basis.Pairwise (fun u v => |dot u v| ≤ eps)

lemma mgsAux_fixed {n : Nat} (l : List (Fin n → ℝ)) :
    ∀ acc : List (Fin n → ℝ),
      (∀ v ∈ l, dot v v = 1) →
      l.Pairwise (fun u v => dot u v = 0) →
      (∀ u ∈ acc, ∀ v ∈ l, dot u v = 0) →
      mgsAux Real.sqrt acc l = l := by
  induction l with
  | nil => intro acc _ _ _; rfl
  | cons v rest ih =>
      intro acc hunit hpair hacc
      have hv1 : dot v v = 1 := hunit v (List.mem_cons_self v rest)
      have hw : projStep acc v = v := by
        unfold projStep
        have hz : (acc.map fun u => dot u v • u).sum = 0 := by
          apply List.sum_eq_zero
          intro x hx
          obtain ⟨u, hu, rfl⟩ := List.mem_map.mp hx
          rw [hacc u hu v (List.mem_cons_self v rest), zero_smul]
        rw [hz, sub_zero]
      have hhead :
          (1 / Real.sqrt (dot (projStep acc v) (projStep acc v))) • projStep acc v
            = v := by
        rw [hw, hv1, Real.sqrt_one, one_div_one, one_smul]
      rw [mgsAux, hhead]
      congr 1
      apply ih (acc ++ [v])
      · exact fun x hx => hunit x (List.mem_cons_of_mem v hx)
      · exact (List.pairwise_cons.mp hpair).2
      · intro u hu x hx
        rcases List.mem_append.mp hu with hu2 | hu2
        · exact hacc u hu2 x (List.mem_cons_of_mem v hx)
        · obtain rfl : u = v := by simpa using hu2
          exact (List.pairwise_cons.mp hpair).1 x hx

/-- C8: orthonormalize applied to an already-orthonormal list (exact
inner products, eps = 0) returns every vector unchanged, and
is_orthonormal holds before (the hypothesis) and after the call. -/
theorem c8_orthonormalize_idempotent {n : Nat} (basis : List (Fin n → ℝ))
    (h : is_orthonormal basis 0) :
    orthonormalize Real.sqrt basis = basis ∧
    is_orthonormal (orthonormalize Real.sqrt basis) 0 := by
  obtain ⟨h1, h2⟩ := h
  have hunit : ∀ v ∈ basis, dot v v = 1 := by
    intro v hv
    have h0 : dot v v - 1 = 0 := abs_nonpos_iff.mp (h1 v hv)
    linarith
  have hpair : basis.Pairwise fun u v => dot u v = 0 :=
    h2.imp fun hle => abs_nonpos_iff.mp hle
  have hfix : orthonormalize Real.sqrt basis = basis := by
    apply mgsAux_fixed basis [] hunit hpair
    intro u hu
    exact absurd hu (List.not_mem_nil u)
  exact ⟨hfix, hfix.symm ▸ ⟨h1, h2⟩⟩

/-- C8 witness: the standard basis of the plane. -/
theorem c8_orthonormalize_idempotent_witness :
    is_orthonormal
        ([fun i => if i = 0 then 1 else 0, fun i => if i = 1 then 1 else 0] :
          List (Fin 2 → ℝ)) 0 ∧
    orthonormalize Real.sqrt
        ([fun i => if i = 0 then 1 else 0, fun i => if i = 1 then 1 else 0] :
          List (Fin 2 → ℝ)) =
      [fun i => if i = 0 then 1 else 0, fun i => if i = 1 then 1 else 0] ∧
    is_orthonormal
        (orthonormalize Real.sqrt
          ([fun i => if i = 0 then 1 else 0, fun i => if i = 1 then 1 else 0] :
            List (Fin 2 → ℝ))) 0 := by
  have h : is_orthonormal
      ([fun i => if i = 0 then 1 else 0, fun i => if i = 1 then 1 else 0] :
        List (Fin 2 → ℝ)) 0 := by
    constructor
    · intro v hv
      simp only [List.mem_cons, List.not_mem_nil, or_false] at hv
      rcases hv with rfl | rfl <;>
        · simp [dot, Fin.sum_univ_two]
    · simp [List.pairwise_cons, dot, Fin.sum_univ_two]
  obtain ⟨g1, g2⟩ := c8_orthonormalize_idempotent _ h
  exact ⟨h, g1, g2⟩

end Dolfinx
